import Mathlib

/-!
# Verification of the Open-AutoGLM chat session controller

Shallow embedding of the session-reconciliation logic of
`src/gui/frontend/src/views/ChatView.tsx`: the transcript data model, the
per-event transcript reducer inside `sendMessage`, the newline framer of the
chunk-reading loop, the run-status poll override rule in `checkStatus`, and
the send guard.  JavaScript strings become `String` / `List Char`; optional
fields become `Option String`; JavaScript truthiness and the string coercion
of `undefined` are modelled explicitly.
-/

namespace AutoGLM

/-- Message role, from the `Message` interface in ChatView.tsx. -/
inductive Role
  | user
  | assistant
deriving DecidableEq

/-- One transcript entry, from the `Message` interface in ChatView.tsx.
Optional interface fields are `Option String` (absent = `none`). -/
structure Message where
  role : Role
  content : String
  thinking : Option String := none
  time : Option String := none
  duration : Option String := none
  image : Option String := none
deriving DecidableEq

/-- A decoded stream record, the tagged variants dispatched on `event.type`
in `sendMessage` (ChatView.tsx lines 150-188).  `other` stands for any
record whose `type` is none of the four recognised tags; the code's final
`return newMsgs` handles it. -/
inductive Event
  | status (content : String)
  | step (thinking action message : Option String) (finished : Bool)
  | done (content : String) (time duration : Option String)
  | error (content : String)
  | other
deriving DecidableEq

/-- JavaScript truthiness of a possibly-absent string: `undefined` and the
empty string are falsy (`if (event.message)`, `event.thinking || ...`). -/
def jsTruthy : Option String → Bool
  | none => false
  | some s => if s = "" then false else true

/-- JavaScript coercion of a possibly-`undefined` string when it is
concatenated (`newThinking += ...` renders `undefined` as "undefined"). -/
def jsString : Option String → String
  | none => "undefined"
  | some s => s

/-- The update the reducer applies to the in-progress (last) message, one
branch per event tag, translated from ChatView.tsx lines 150-188.  The
`step` branch follows the source order: `event.thinking || lastMsg.thinking`,
then the `event.action` override, then the `event.message` dispatch on
`event.finished`. -/
def reduceMsg (lastMsg : Message) (e : Event) : Message :=
  match e with
  | .status c => { lastMsg with thinking := some c }
  | .step th ac msg fin =>
      let thinking0 : Option String := if jsTruthy th then th else lastMsg.thinking
      let thinking1 : Option String :=
        match ac with
        | some a => some ("执行动作: " ++ a)
        | none => thinking0
      let content1 : String :=
        if jsTruthy msg && fin then
          lastMsg.content ++ (if lastMsg.content = "" then "" else "\n") ++ msg.getD ""
        else lastMsg.content
      let thinking2 : Option String :=
        if jsTruthy msg && !fin then
          some (jsString thinking1 ++ "\n执行结果: " ++ msg.getD "")
        else thinking1
      { lastMsg with thinking := thinking2, content := content1 }
  | .done c t d => { lastMsg with content := c, time := t, duration := d }
  | .error c => { lastMsg with content := c }
  | .other => lastMsg

/-- Replace the last element by `f` of it, leaving every other element as it
is; models `newMsgs.map((m, i) => i === newMsgs.length - 1 ? f(m) : m)`. -/
def mapLast (f : Message → Message) : List Message → List Message
  | [] => []
  | [m] => [f m]
  | m :: m' :: rest => m :: mapLast f (m' :: rest)

/-- The transcript reducer of `sendMessage` (ChatView.tsx lines 144-189):
look at the last message; reading `.role` of an empty transcript's
`newMsgs[newMsgs.length - 1]` (which is `undefined`) throws, modelled as
`none`; a last message that is not an assistant message makes the event a
no-op; otherwise the event's update is applied to the last message only. -/
def applyEvent (msgs : List Message) (e : Event) : Option (List Message) :=
  match msgs.getLast? with
  | none => none
  | some lastMsg =>
      if lastMsg.role ≠ Role.assistant then some msgs
      else some (mapLast (fun m => reduceMsg m e) msgs)

/-- The run-status poll's loading update (`checkStatus`, ChatView.tsx lines
54-61): `data.running` forces `true`, `!data.running` forces `false`,
otherwise the previous local value is kept. -/
def nextLoading (running prev : Bool) : Bool :=
  if running && !prev then true
  else if !running && prev then false
  else prev

/-- The whitespace characters removed by JavaScript's `String.trim`, as far
as the records of this stream can contain them. -/
def isJsSpace (c : Char) : Bool :=
  c = ' ' || c = '\t' || c = '\n' || c = '\r' || c = '\x0b' || c = '\x0c'

/-- `!line.trim()`: a record is blank when it trims to the empty string,
i.e. when every character is whitespace. -/
def isBlankRec (r : List Char) : Bool :=
  r.all isJsSpace

/-- `!input.trim()` on the send input. -/
def isBlankStr (s : String) : Bool :=
  isBlankRec s.toList

/-- One pass of the chunk loop's framing (ChatView.tsx lines 135-137):
`buffer += chunk; const lines = buffer.split('\n'); buffer = lines.pop()`.
The result is the list of complete records handed to the decoder and the new
residual buffer. -/
def processChunk (buf chunk : List Char) : List (List Char) × List Char :=
  let lines := (buf ++ chunk).splitOn '\n'
  (lines.dropLast, lines.getLastD [])

/-- Run the framer over a whole sequence of arrived chunks, starting from
the given buffer, collecting every complete record in order; the loop ends
(`if (done) break`) with the final residual buffer still unprocessed. -/
def feedMany : List Char → List (List Char) → List (List Char) × List Char
  | buf, [] => ([], buf)
  | buf, c :: cs =>
      let p := processChunk buf c
      let q := feedMany p.2 cs
      (p.1 ++ q.1, q.2)

/-- The complete records the reading loop ever hands to the record handler,
for a stream that arrives as the given chunks (`buffer` starts as `''`). -/
def framerRecords (chunks : List (List Char)) : List (List Char) :=
  (feedMany [] chunks).1

/-- The ordered event sequence decoded from a stream: blank records are
skipped (`if (!line.trim()) continue`) and each remaining record is decoded,
a failed parse yielding nothing. -/
def streamEvents (decode : List Char → Option Event) (chunks : List (List Char)) :
    List Event :=
  ((framerRecords chunks).filter (fun r => !(isBlankRec r))).filterMap decode

/-- The body of `for (const line of lines)` (ChatView.tsx lines 139-193)
acting on the transcript: skip blank records; `JSON.parse` failure is caught
and only logged, leaving the transcript as it was; a decoded event goes
through the reducer (whose `none` models the fault on an empty
transcript). -/
def processRecord (decode : List Char → Option Event) (t : List Message)
    (r : List Char) : Option (List Message) :=
  if isBlankRec r then some t
  else
    match decode r with
    | none => some t
    | some e => applyEvent t e

/-- Fold the record handler over a record sequence; a fault aborts. -/
def processRecords (decode : List Char → Option Event) (t : List Message) :
    List (List Char) → Option (List Message)
  | [] => some t
  | r :: rs =>
      match processRecord decode t r with
      | none => none
      | some t' => processRecords decode t' rs

/-- The empty assistant placeholder the controller appends before entering
the chunk loop (ChatView.tsx line 129). -/
def assistantPlaceholder : Message :=
  { role := Role.assistant, content := "", thinking := some "" }

/-- The submission body of `/api/chat` (ChatView.tsx lines 105-109). -/
structure ChatRequest where
  message : String
  is_new_task : Bool
  loop_count : Nat
deriving DecidableEq

/-- What a send attempt leaves behind, as far as the guard claim needs:
the transcript, the loading flag and the submission request, if one was
issued. -/
structure SendOutcome where
  msgs : List Message
  loading : Bool
  request : Option ChatRequest
deriving DecidableEq

/-- The synchronous prefix of `sendMessage` (ChatView.tsx lines 89-110):
`if (!input.trim() || loading) return`; otherwise append the optimistic user
message with the placeholder timestamp, set loading, and issue the
submission request. -/
def trySend (input : String) (loading : Bool) (msgs : List Message)
    (isInteractive isLoopMode : Bool) (loopCount : Nat) : SendOutcome :=
  if isBlankStr input || loading then ⟨msgs, loading, none⟩
  else
    ⟨msgs ++ [{ role := Role.user, content := input, time := some "..." }], true,
      some ⟨input, !isInteractive || decide (msgs.length ≤ 1),
        if isLoopMode then loopCount else 1⟩⟩

/-- An observable happening of the loop-mode driver: repetition `k`'s
submission request is sent (loading goes true), or repetition `k`'s cycle
settles (loading returns to false). -/
inductive LoopEv
  | send (k : Nat)
  | settle (k : Nat)
deriving DecidableEq

/-- Modelled from the spec: the loop-mode repetition driver.  The part of
this repository that interprets `loop_count` (the GUI backend serving
`/api/chat`) is not under `src/`; the frontend only forwards `loop_count`
in the submission body (ChatView.tsx line 108).  Per spec §4.5, a
submission requesting `n` repetitions runs them as `n` consecutive
idle-to-idle cycles: each cycle sends its request and fully settles
(loading back to false) before the next cycle's request is sent. -/
def loopTrace : Nat → List LoopEv
  | 0 => []
  | n + 1 => loopTrace n ++ [LoopEv.send n, LoopEv.settle n]

/-- The repetition indices whose requests are sent, in emission order. -/
def sendsOf (t : List LoopEv) : List Nat :=
  t.filterMap fun e =>
    match e with
    | LoopEv.send k => some k
    | LoopEv.settle _ => none

/-- The repetition indices that settle, in order. -/
def settlesOf (t : List LoopEv) : List Nat :=
  t.filterMap fun e =>
    match e with
    | LoopEv.send _ => none
    | LoopEv.settle k => some k

/-- Sample transcript entries used to instantiate the reducer theorems. -/
def demoUser : Message := { role := Role.user, content := "打开相机" }

/-- An in-progress assistant message holding partial step output. -/
def demoPartial : Message :=
  { role := Role.assistant, content := "partial", thinking := some "" }

/-- The assistant message used in the C3 counterexample. -/
def cexMsg : Message := { role := Role.assistant, content := "x" }

end AutoGLM

namespace AutoGLM

/-- C1 helper facts about `mapLast`. -/
theorem mapLast_concat (f : Message → Message) (xs : List Message) (x : Message) :
    mapLast f (xs ++ [x]) = xs ++ [f x] := by
  induction xs with
  | nil => rfl
  | cons a as ih =>
      cases as with
      | nil => simp [mapLast] at ih ⊢
      | cons b bs => simpa [mapLast] using ih

/-- `applyEvent` on a transcript ending in an assistant message rewrites just
that message by `reduceMsg`. -/
theorem applyEvent_concat_assistant (xs : List Message) (last : Message)
    (h : last.role = Role.assistant) (e : Event) :
    applyEvent (xs ++ [last]) e = some (xs ++ [reduceMsg last e]) := by
  simp [applyEvent, List.getLast?_concat, h, mapLast_concat]

/-- `applyEvent` on a transcript ending in a non-assistant message is the
identity. -/
theorem applyEvent_concat_other (xs : List Message) (last : Message)
    (h : last.role ≠ Role.assistant) (e : Event) :
    applyEvent (xs ++ [last]) e = some (xs ++ [last]) := by
  simp [applyEvent, List.getLast?_concat, h]

/-- A transcript with a last element is a concatenation. -/
theorem eq_concat_of_getLast? {msgs : List Message} {last : Message}
    (h : msgs.getLast? = some last) : msgs = msgs.dropLast ++ [last] := by
  rcases msgs.eq_nil_or_concat with rfl | ⟨ys, y, rfl⟩
  · simp at h
  · rw [List.concat_eq_append, List.getLast?_concat] at h
    cases h
    simp

/-- C1: the poll's override rule: remote running with local loading false
flips loading true; remote not-running with local loading true flips it
false; matching states are left unchanged. -/
theorem checkStatus_override_rule :
    nextLoading true false = true ∧ nextLoading false true = false ∧
      ∀ b : Bool, nextLoading b b = b := by
  refine ⟨rfl, rfl, ?_⟩
  intro b
  cases b <;> rfl

/-- C2: a `done{content,time,duration}` event replaces the in-progress
assistant message's `content`, `time` and `duration` wholesale with the
event's values, whatever content had accumulated before. -/
theorem done_overwrites (msgs : List Message) (last : Message) (c : String)
    (t d : Option String) (hlast : msgs.getLast? = some last)
    (hrole : last.role = Role.assistant) :
    applyEvent msgs (.done c t d)
      = some (msgs.dropLast ++
          [{ last with content := c, time := t, duration := d }]) := by
  obtain ⟨xs, rfl⟩ : ∃ xs, msgs = xs ++ [last] := ⟨_, eq_concat_of_getLast? hlast⟩
  rw [applyEvent_concat_assistant xs last hrole]
  simp [reduceMsg]

/-- Witness for C2 at the spec's own example: prior content "partial" and
`done{content:"final"}` yield content exactly "final". -/
theorem done_overwrites_witness :
    applyEvent [demoUser, demoPartial] (.done "final" (some "12:00:01") (some "1.2s"))
      = some ([demoUser, demoPartial].dropLast ++
          [{ demoPartial with
              content := "final"
              time := some "12:00:01"
              duration := some "1.2s" }]) :=
  done_overwrites [demoUser, demoPartial] demoPartial "final" (some "12:00:01")
    (some "1.2s") rfl rfl

/-- C4: an event only ever rewrites the last message: the transcript keeps
its length, every earlier message is untouched, and when the last message is
not an assistant message the transcript is returned unchanged. -/
theorem event_touches_only_last (msgs : List Message) (last : Message) (e : Event)
    (hlast : msgs.getLast? = some last) :
    ∃ msgs', applyEvent msgs e = some msgs' ∧ msgs'.length = msgs.length ∧
      msgs'.dropLast = msgs.dropLast ∧
      (last.role ≠ Role.assistant → msgs' = msgs) := by
  obtain ⟨xs, rfl⟩ : ∃ xs, msgs = xs ++ [last] := ⟨_, eq_concat_of_getLast? hlast⟩
  by_cases h : last.role = Role.assistant
  · exact ⟨xs ++ [reduceMsg last e], applyEvent_concat_assistant xs last h e,
      by simp, by simp, fun hn => absurd h hn⟩
  · exact ⟨xs ++ [last], applyEvent_concat_other xs last h e, rfl, rfl, fun _ => rfl⟩

/-- Witness for C4: a `status` event hitting a transcript whose last message
is the user's is a no-op. -/
theorem event_touches_only_last_witness :
    ∃ msgs', applyEvent [demoUser] (.status "s") = some msgs' ∧
      msgs'.length = [demoUser].length ∧
      msgs'.dropLast = [demoUser].dropLast ∧
      (demoUser.role ≠ Role.assistant → msgs' = [demoUser]) :=
  event_touches_only_last [demoUser] demoUser (.status "s") rfl

/-- C3 fails as stated on a present-but-empty `message` field: JavaScript
truthiness makes `if (event.message)` skip `message: ""`, so with prior
content "x" a `step{message:"", finished:true}` leaves content "x" instead
of appending the empty text after a newline separator ("x\n"). -/
theorem step_empty_message_cex :
    applyEvent [cexMsg] (.step none none (some "") true) = some [cexMsg] ∧
      applyEvent [cexMsg] (.step none none (some "") true)
        ≠ some [{ cexMsg with content := "x" ++ "\n" ++ "" }] := by
  constructor
  · rfl
  · decide

/-- C3 (amended to non-empty `message`): a step event carrying a non-empty
message with `finished=false` leaves `content` untouched and folds the
message into `thinking` as a "执行结果" annotation, while `finished=true`
appends the message to `content` exactly once, newline-separated exactly
when content was non-empty. -/
theorem step_message_routing (msgs : List Message) (last : Message)
    (th ac : Option String) (m : String) (hlast : msgs.getLast? = some last)
    (hrole : last.role = Role.assistant) (hm : m ≠ "") :
    (∃ last', applyEvent msgs (.step th ac (some m) false)
        = some (msgs.dropLast ++ [last']) ∧
        last'.content = last.content ∧
        ∃ pre, last'.thinking = some (pre ++ "\n执行结果: " ++ m)) ∧
    (∃ last'', applyEvent msgs (.step th ac (some m) true)
        = some (msgs.dropLast ++ [last'']) ∧
        last''.content
          = if last.content = "" then m else last.content ++ "\n" ++ m) := by
  obtain ⟨xs, rfl⟩ : ∃ xs, msgs = xs ++ [last] := ⟨_, eq_concat_of_getLast? hlast⟩
  rw [List.dropLast_concat]
  constructor
  · refine ⟨reduceMsg last (.step th ac (some m) false),
      applyEvent_concat_assistant xs last hrole _, ?_, ?_⟩
    · simp [reduceMsg, jsTruthy, hm]
    · refine ⟨jsString (match ac with
        | some a => some ("执行动作: " ++ a)
        | none => if jsTruthy th then th else last.thinking), ?_⟩
      simp [reduceMsg, jsTruthy, hm]
  · refine ⟨reduceMsg last (.step th ac (some m) true),
      applyEvent_concat_assistant xs last hrole _, ?_⟩
    by_cases hc : last.content = ""
    · simp [reduceMsg, jsTruthy, hm, hc, String.empty_append]
    · simp [reduceMsg, jsTruthy, hm, hc]

/-- The default of `getLastD` on a non-empty list is irrelevant. -/
theorem getLastD_mem {β : Type} : ∀ (l : List β) (d : β), l ≠ [] → l.getLastD d ∈ l := by
  intro l
  induction l with
  | nil => intro d h; exact absurd rfl h
  | cons y ys ih =>
      intro d h
      rw [List.getLastD_cons]
      cases ys with
      | nil => simp [List.getLastD]
      | cons z zs => exact List.mem_cons_of_mem y (ih y (by simp))

/-- No element of any piece produced by `splitOnP` satisfies the
predicate. -/
theorem not_of_mem_splitOnP {α : Type} {p : α → Bool} :
    ∀ (xs l : List α), l ∈ xs.splitOnP p → ∀ x ∈ l, ¬(p x = true) := by
  intro xs
  induction xs with
  | nil =>
      intro l hl x hx
      rw [List.splitOnP_nil, List.mem_singleton] at hl
      subst hl
      simp at hx
  | cons c cs ih =>
      intro l hl x hx
      rw [List.splitOnP_cons] at hl
      by_cases hc : p c = true
      · rw [if_pos hc] at hl
        rcases List.mem_cons.mp hl with rfl | hl
        · simp at hx
        · exact ih l hl x hx
      · rw [if_neg hc] at hl
        cases hcs : cs.splitOnP p with
        | nil => exact absurd hcs (List.splitOnP_ne_nil p cs)
        | cons m ms =>
            rw [hcs, List.modifyHead_cons] at hl
            rcases List.mem_cons.mp hl with rfl | hl
            · rcases List.mem_cons.mp hx with rfl | hx
              · exact hc
              · exact ih m (by rw [hcs]; exact List.mem_cons_self m ms) x hx
            · exact ih l (by rw [hcs]; exact List.mem_cons.mpr (Or.inr hl)) x hx

/-- How `splitOnP` acts on a concatenation: the pieces of `a` except the
last, then the pieces of `b` with `a`'s trailing piece glued onto the first
of them. -/
theorem splitOnP_glue {α : Type} (p : α → Bool) (a b : List α) :
    (a ++ b).splitOnP p
      = (a.splitOnP p).dropLast
        ++ (b.splitOnP p).modifyHead (fun y => (a.splitOnP p).getLastD [] ++ y) := by
  induction a with
  | nil =>
      cases hb : b.splitOnP p with
      | nil => exact absurd hb (List.splitOnP_ne_nil p b)
      | cons y ys => simp [List.splitOnP_nil, List.modifyHead_cons, hb]
  | cons c cs ih =>
      rw [List.cons_append, List.splitOnP_cons, List.splitOnP_cons]
      by_cases hc : p c = true
      · rw [if_pos hc, if_pos hc, ih]
        cases hcs : cs.splitOnP p with
        | nil => exact absurd hcs (List.splitOnP_ne_nil p cs)
        | cons l ls =>
            simp [List.dropLast_cons₂, List.getLastD_cons, List.cons_append]
      · rw [if_neg hc, if_neg hc, ih]
        cases hcs : cs.splitOnP p with
        | nil => exact absurd hcs (List.splitOnP_ne_nil p cs)
        | cons l ls =>
            cases ls with
            | nil =>
                cases hb : b.splitOnP p with
                | nil => exact absurd hb (List.splitOnP_ne_nil p b)
                | cons y ys =>
                    simp [List.modifyHead_cons, List.getLastD, List.cons_append]
            | cons l2 ls2 =>
                simp [List.modifyHead_cons, List.dropLast_cons₂, List.getLastD_cons,
                  List.cons_append]

/-- `List.splitOn` is `splitOnP` on equality with the separator. -/
theorem splitOn_eq_splitOnP (s : List Char) :
    s.splitOn '\n' = s.splitOnP (· == '\n') := rfl

/-- Splitting never yields the empty list of pieces. -/
theorem splitOn_ne_nil (s : List Char) : s.splitOn '\n' ≠ [] :=
  List.splitOnP_ne_nil _ s

/-- A newline-free text is a single piece. -/
theorem splitOn_single {s : List Char} (h : '\n' ∉ s) : s.splitOn '\n' = [s] := by
  rw [splitOn_eq_splitOnP]
  apply List.splitOnP_eq_single
  intro x hx hP
  rw [beq_iff_eq] at hP
  subst hP
  exact h hx

/-- The glue lemma, in the `splitOn '\n'` form the framer uses. -/
theorem splitOn_glue (a b : List Char) :
    (a ++ b).splitOn '\n'
      = (a.splitOn '\n').dropLast
        ++ (b.splitOn '\n').modifyHead (fun y => (a.splitOn '\n').getLastD [] ++ y) :=
  splitOnP_glue (· == '\n') a b

/-- The residual buffer the framer keeps never contains a newline. -/
theorem newline_not_mem_residual (x : List Char) :
    '\n' ∉ (x.splitOn '\n').getLastD [] := by
  intro hmem
  have hm : (x.splitOn '\n').getLastD [] ∈ x.splitOn '\n' :=
    getLastD_mem _ _ (splitOn_ne_nil x)
  rw [splitOn_eq_splitOnP] at hm
  exact not_of_mem_splitOnP x _ hm '\n' hmem (by simp)

/-- One framing pass over a concatenation of two chunks emits exactly the
records of the first pass followed by those of the second, with the buffer
threaded through. -/
theorem processChunk_append (buf a b : List Char) :
    processChunk buf (a ++ b)
      = ((processChunk buf a).1 ++ (processChunk (processChunk buf a).2 b).1,
          (processChunk (processChunk buf a).2 b).2) := by
  have hassoc : buf ++ (a ++ b) = (buf ++ a) ++ b := (List.append_assoc buf a b).symm
  have hZ : (((buf ++ a).splitOn '\n').getLastD [] ++ b).splitOn '\n'
      = (b.splitOn '\n').modifyHead
          (fun y => ((buf ++ a).splitOn '\n').getLastD [] ++ y) := by
    rw [splitOn_glue, splitOn_single (newline_not_mem_residual (buf ++ a))]
    simp [List.getLastD]
  have hMne : (b.splitOn '\n').modifyHead
      (fun y => ((buf ++ a).splitOn '\n').getLastD [] ++ y) ≠ [] := by
    cases hb : b.splitOn '\n' with
    | nil => exact absurd hb (splitOn_ne_nil b)
    | cons y ys => simp [List.modifyHead_cons]
  simp only [processChunk, hassoc, splitOn_glue (buf ++ a) b, hZ, Prod.mk.injEq]
  constructor
  · exact List.dropLast_append_of_ne_nil _ hMne
  · rw [List.getLastD_eq_getLast?, List.getLast?_append_of_ne_nil _ hMne,
      ← List.getLastD_eq_getLast?]

/-- Feeding the chunks one at a time equals feeding their concatenation in
one pass, for any newline-free starting buffer. -/
theorem feedMany_flatten :
    ∀ (chunks : List (List Char)) (buf : List Char), '\n' ∉ buf →
      feedMany buf chunks = processChunk buf chunks.flatten := by
  intro chunks
  induction chunks with
  | nil =>
      intro buf hbuf
      simp [feedMany, processChunk, splitOn_single hbuf, List.getLastD]
  | cons c cs ih =>
      intro buf hbuf
      have hres : '\n' ∉ (processChunk buf c).2 :=
        newline_not_mem_residual (buf ++ c)
      simp only [feedMany, List.flatten_cons, processChunk_append buf c cs.flatten,
        ih _ hres]

/-- `mapLast` keeps the transcript length. -/
theorem mapLast_length (f : Message → Message) (l : List Message) :
    (mapLast f l).length = l.length := by
  induction l with
  | nil => rfl
  | cons a as ih =>
      cases as with
      | nil => rfl
      | cons b bs => simpa [mapLast] using ih

/-- On a non-empty transcript the reducer never faults and never empties the
transcript. -/
theorem applyEvent_some_of_ne_nil {t : List Message} (h : t ≠ []) (e : Event) :
    ∃ t', applyEvent t e = some t' ∧ t' ≠ [] := by
  rcases t.eq_nil_or_concat with rfl | ⟨xs, a, rfl⟩
  · exact absurd rfl h
  · rw [List.concat_eq_append]
    by_cases ha : a.role = Role.assistant
    · exact ⟨xs ++ [reduceMsg a e], applyEvent_concat_assistant xs a ha e, by simp⟩
    · exact ⟨xs ++ [a], applyEvent_concat_other xs a ha e, by simp⟩

/-- Processing any record sequence from a non-empty transcript never
faults. -/
theorem processRecords_some (decode : List Char → Option Event)
    (rs : List (List Char)) :
    ∀ t : List Message, t ≠ [] →
      ∃ t', processRecords decode t rs = some t' ∧ t' ≠ [] := by
  induction rs with
  | nil => exact fun t ht => ⟨t, rfl, ht⟩
  | cons r rs ih =>
      intro t ht
      by_cases hb : isBlankRec r = true
      · obtain ⟨t', h1, h2⟩ := ih t ht
        exact ⟨t', by simp [processRecords, processRecord, hb, h1], h2⟩
      · cases hd : decode r with
        | none =>
            obtain ⟨t', h1, h2⟩ := ih t ht
            exact ⟨t', by simp [processRecords, processRecord, hb, hd, h1], h2⟩
        | some e =>
            obtain ⟨t1, he, h1⟩ := applyEvent_some_of_ne_nil ht e
            obtain ⟨t', h2, h3⟩ := ih t1 h1
            exact ⟨t', by simp [processRecords, processRecord, hb, hd, he, h2], h3⟩

/-- C10: because the controller appends the empty assistant placeholder
before entering the chunk loop, the reducer is only ever run on a non-empty
transcript and so never reaches the faulting access; on an empty transcript
that access does fault (the reducer yields `none`, not a no-op). -/
theorem placeholder_prevents_fault (decode : List Char → Option Event)
    (prior : List Message) (rs : List (List Char)) :
    (processRecords decode (prior ++ [assistantPlaceholder]) rs).isSome = true ∧
      ∀ e : Event, applyEvent [] e = none := by
  constructor
  · obtain ⟨t', h, -⟩ :=
      processRecords_some decode rs (prior ++ [assistantPlaceholder]) (by simp)
    simp [h]
  · intro e
    rfl

/-- C7: a record the decoder cannot parse produces no event and leaves the
transcript exactly as it was, and the reading loop just moves on to the
remaining records. -/
theorem decode_failure_is_noop (decode : List Char → Option Event)
    (t : List Message) (r : List Char) (rs : List (List Char))
    (h : decode r = none) :
    processRecord decode t r = some t ∧
      processRecords decode t (r :: rs) = processRecords decode t rs := by
  have h1 : processRecord decode t r = some t := by
    by_cases hb : isBlankRec r = true
    · simp [processRecord, hb]
    · simp [processRecord, hb, h]
  exact ⟨h1, by simp [processRecords, h1]⟩

/-- Witness for C7 on a concrete undecodable record. -/
theorem decode_failure_is_noop_witness :
    processRecord (fun _ => none) [] ['x'] = some [] ∧
      processRecords (fun _ => none) [] (['x'] :: []) =
        processRecords (fun _ => none) [] [] :=
  decode_failure_is_noop (fun _ => none) [] ['x'] [] rfl

/-- C8: a send attempted while loading, or with blank input, is rejected as
a complete no-op: the transcript and the loading flag are unchanged and no
submission request is issued. -/
theorem send_guard (input : String) (loading : Bool) (msgs : List Message)
    (ii ilm : Bool) (lc : Nat)
    (h : loading = true ∨ isBlankStr input = true) :
    trySend input loading msgs ii ilm lc = ⟨msgs, loading, none⟩ := by
  unfold trySend
  rcases h with h | h <;> simp [h]

/-- Witness for C8: a second submit while loading, and a whitespace-only
submit, both reject. -/
theorem send_guard_witness :
    trySend "再试一次" true [] true false 1 = ⟨[], true, none⟩ ∧
      trySend "   " false [] true false 1 = ⟨[], false, none⟩ :=
  ⟨send_guard "再试一次" true [] true false 1 (Or.inl rfl),
    send_guard "   " false [] true false 1 (Or.inr (by decide))⟩

/-- `sendsOf` distributes over trace concatenation. -/
theorem sendsOf_append (a b : List LoopEv) :
    sendsOf (a ++ b) = sendsOf a ++ sendsOf b :=
  List.filterMap_append _ _ _

/-- `settlesOf` distributes over trace concatenation. -/
theorem settlesOf_append (a b : List LoopEv) :
    settlesOf (a ++ b) = settlesOf a ++ settlesOf b :=
  List.filterMap_append _ _ _

/-- Each repetition's request is sent exactly once, in index order. -/
theorem sendsOf_loopTrace (n : Nat) : sendsOf (loopTrace n) = List.range n := by
  induction n with
  | zero => rfl
  | succ n ih => rw [loopTrace, sendsOf_append, ih, List.range_succ]; rfl

/-- Each repetition settles exactly once, in index order. -/
theorem settlesOf_loopTrace (n : Nat) : settlesOf (loopTrace n) = List.range n := by
  induction n with
  | zero => rfl
  | succ n ih => rw [loopTrace, settlesOf_append, ih, List.range_succ]; rfl

/-- A repetition's send/settle pair appears in order in the driver trace. -/
theorem pair_sublist_loopTrace (k : Nat) :
    ∀ n, k < n →
      List.Sublist [LoopEv.send k, LoopEv.settle k] (loopTrace n) := by
  intro n
  induction n with
  | zero => intro h; omega
  | succ n ih =>
      intro h
      by_cases h' : k < n
      · exact (ih h').trans (List.sublist_append_left _ _)
      · have hkn : k = n := by omega
        subst hkn
        exact List.sublist_append_right _ _

/-- C9: the loop-mode driver runs its repetitions strictly sequentially:
every repetition below `n` is sent exactly once and settles exactly once,
and repetition `k+1`'s request appears only after repetition `k` has sent
and settled (loading back to false). -/
theorem loop_strictly_sequential (n : Nat) :
    sendsOf (loopTrace n) = List.range n ∧
      settlesOf (loopTrace n) = List.range n ∧
      ∀ k, k + 1 < n →
        List.Sublist [LoopEv.send k, LoopEv.settle k, LoopEv.send (k + 1)]
          (loopTrace n) := by
  refine ⟨sendsOf_loopTrace n, settlesOf_loopTrace n, ?_⟩
  intro k
  induction n with
  | zero => intro h; omega
  | succ n ih =>
      intro h
      by_cases h' : k + 1 < n
      · exact (ih h').trans (List.sublist_append_left _ _)
      · have hn : k + 1 = n := by omega
        subst hn
        have h1 : List.Sublist [LoopEv.send k, LoopEv.settle k] (loopTrace (k + 1)) :=
          pair_sublist_loopTrace k (k + 1) (Nat.lt_succ_self k)
        have h2 : List.Sublist [LoopEv.send (k + 1)]
            [LoopEv.send (k + 1), LoopEv.settle (k + 1)] :=
          List.sublist_cons_self _ _ |>.cons₂ _ |>.trans (List.Sublist.refl _)
        exact h1.append h2
  -- the `k + 1 = n` branch glues the pair for `k` with the head of cycle `k+1`

/-- Witness for C9 at `loop_count = 3`. -/
theorem loop_strictly_sequential_witness :
    sendsOf (loopTrace 3) = List.range 3 ∧
      List.Sublist [LoopEv.send 0, LoopEv.settle 0, LoopEv.send 1] (loopTrace 3) :=
  ⟨(loop_strictly_sequential 3).1,
    (loop_strictly_sequential 3).2.2 0 (by decide)⟩

/-- C5: splitting the stream's text into chunks at any offsets produces,
through the framer and the decoder, exactly the record sequence and event
sequence of feeding the whole text as one chunk; blank records never decode
to an event (they are filtered before the decoder). -/
theorem framer_resplit_invariant (chunks : List (List Char))
    (decode : List Char → Option Event) :
    framerRecords chunks = framerRecords [chunks.flatten] ∧
      streamEvents decode chunks = streamEvents decode [chunks.flatten] := by
  have h1 : framerRecords chunks = framerRecords [chunks.flatten] := by
    unfold framerRecords
    rw [feedMany_flatten chunks [] (by simp),
      feedMany_flatten [chunks.flatten] [] (by simp)]
    simp
  exact ⟨h1, by unfold streamEvents; rw [h1]⟩

/-- C6 fails as stated: a stream ending with unterminated non-blank residual
data (here the single chunk "a") emits no record at all — the residual stays
in the buffer and is dropped when the loop breaks on `done`. -/
theorem residual_discarded_cex :
    framerRecords [['a']] = [] ∧ (feedMany [] [['a']]).2 = ['a'] ∧
      isBlankRec ['a'] = false ∧ ['a'] ∉ framerRecords [['a']] := by
  refine ⟨by rfl, by rfl, by rfl, ?_⟩
  intro h
  rw [show framerRecords [['a']] = [] from rfl] at h
  exact List.not_mem_nil _ h

/-- C6 (amended): when the byte stream ends, whatever remains in the
framer's buffer — the trailing record not terminated by a newline — is
discarded unprocessed, blank or not: the records ever processed are exactly
the newline-terminated ones, and the residual is the trailing segment. -/
theorem stream_end_discards_residual (chunks : List (List Char)) :
    framerRecords chunks = (chunks.flatten.splitOn '\n').dropLast ∧
      (feedMany [] chunks).2 = (chunks.flatten.splitOn '\n').getLastD [] := by
  have h := feedMany_flatten chunks [] (by simp)
  constructor
  · unfold framerRecords
    rw [h]
    simp [processChunk]
  · rw [h]
    simp [processChunk]

/-- Witness for C3's amended statement at prior content "partial" and
message "X". -/
theorem step_message_routing_witness :
    (∃ last', applyEvent [demoUser, demoPartial] (.step none none (some "X") false)
        = some ([demoUser, demoPartial].dropLast ++ [last']) ∧
        last'.content = demoPartial.content ∧
        ∃ pre, last'.thinking = some (pre ++ "\n执行结果: " ++ "X")) ∧
    (∃ last'', applyEvent [demoUser, demoPartial] (.step none none (some "X") true)
        = some ([demoUser, demoPartial].dropLast ++ [last'']) ∧
        last''.content
          = if demoPartial.content = "" then "X"
            else demoPartial.content ++ "\n" ++ "X") :=
  step_message_routing [demoUser, demoPartial] demoPartial none none "X" rfl rfl
    (by decide)

end AutoGLM
